import Mathlib

set_option linter.unusedSectionVars false
set_option linter.unusedVariables false

/-!
Shallow embedding of the driven damped pendulum simulator
(src/model.rs, src/solve_equation.rs) over an abstract linear ordered
field with a floor.  The f64 operations `sin` and the constant `PI` are
passed in as parameters `fsin` and `fpi`; the theorems about the actual
program instantiate the field at `ℝ` with `Real.sin` and `Real.pi`.
f64 `rem_euclid` is modelled by the floor-style remainder `remEuclid`.
The Rust `as usize` cast of a nonnegative quotient is modelled by
`Nat.floor` (which also sends negative reals to 0, matching the
saturating cast).
-/

namespace Chaos

/-- model.rs: `PendulumParams` (all fields, including the unused traversal
fields). -/
structure PendulumParams (α : Type) where
  g : α
  l : α
  q : α
  f_d : α
  omega_d : α
  dt : α
  t_end : α
  theta_start : α
  theta_end : α
  d_theta : α
  omega_start : α
  omega_end : α
  d_omega : α

/-- solve_equation.rs: `State`. -/
structure State (α : Type) where
  theta : α
  omega : α

variable {α : Type} [LinearOrderedField α] [FloorRing α]

/-- solve_equation.rs: `rhs`. -/
def rhs (fsin : α → α) (theta omega t : α) (params : PendulumParams α) : α × α :=
  let d_theta_dt := omega
  let d_omega_dt := -(params.g / params.l) * fsin theta
      - params.q * d_theta_dt
      + params.f_d * fsin (params.omega_d * t)
  (d_theta_dt, d_omega_dt)

/-- solve_equation.rs: `rk4_step`. -/
def rk4_step (fsin : α → α) (state : State α) (t : α) (params : PendulumParams α) :
    State α × α :=
  let k1 := rhs fsin state.theta state.omega t params
  let middle_step_1 : State α :=
    ⟨state.theta + (1/2) * params.dt * k1.1, state.omega + (1/2) * params.dt * k1.2⟩
  let k2 := rhs fsin middle_step_1.theta middle_step_1.omega (t + (1/2) * params.dt) params
  let middle_step_2 : State α :=
    ⟨state.theta + (1/2) * params.dt * k2.1, state.omega + (1/2) * params.dt * k2.2⟩
  let k3 := rhs fsin middle_step_2.theta middle_step_2.omega (t + (1/2) * params.dt) params
  let middle_step_3 : State α :=
    ⟨state.theta + params.dt * k3.1, state.omega + params.dt * k3.2⟩
  let k4 := rhs fsin middle_step_3.theta middle_step_3.omega (t + params.dt) params
  let new_theta := state.theta + params.dt / 6 * (k1.1 + 2 * k2.1 + 2 * k3.1 + k4.1)
  let new_omega := state.omega + params.dt / 6 * (k1.2 + 2 * k2.2 + 2 * k3.2 + k4.2)
  (⟨new_theta, new_omega⟩, t + params.dt)

/-- The body of the `for _ in 0..steps` loop of `solve`: starting from
`state` at time `t`, perform `k` RK4 steps and collect the `(time, state)`
pairs pushed after each step. -/
def solveSteps (fsin : α → α) (params : PendulumParams α) :
    ℕ → State α → α → List (α × State α)
  | 0, _, _ => []
  | Nat.succ k, state, t =>
    let r := rk4_step fsin state t params
    (r.2, r.1) :: solveSteps fsin params k r.1 r.2

/-- solve_equation.rs: `solve`.  The step count is computed once, before
the loop, as the truncation of `t_end / dt` (`as usize`); the initial
`(0, state)` pair is pushed first. -/
def solve (fsin : α → α) (params : PendulumParams α)
    (initial_theta initial_omega : α) : List (α × State α) :=
  let state : State α := ⟨initial_theta, initial_omega⟩
  let steps : ℕ := ⌊params.t_end / params.dt⌋₊
  ((0 : α), state) :: solveSteps fsin params steps state 0

/-- f64 `rem_euclid` on reals: the floor-style remainder, nonnegative for
a positive modulus. -/
def remEuclid (x y : α) : α := x - y * (⌊x / y⌋ : ℤ)

/-- solve_equation.rs: `wrap_angle`. -/
def wrap_angle (fpi : α) (theta : α) : α :=
  remEuclid (theta + fpi) (2 * fpi) - fpi

/-- Rust `Iterator::position`: index of the first element satisfying the
predicate. -/
def position {β : Type} (p : β → Prop) [DecidablePred p] : List β → Option ℕ
  | [] => none
  | x :: xs => if p x then some 0 else (position p xs).map (· + 1)

/-- Default pair used to totalize the (always in-bounds) Rust index
accesses `traj[i]`. -/
def dflt : α × State α := (0, ⟨0, 0⟩)

/-- The sample pushed by one iteration of the loop of
`sample_poincare_from_trajectory` when the located index is `i`
(branches: `i == 0`, degenerate `dt <= 0`, and interpolation). -/
def sampleAt (fpi : α) (traj : List (α × State α)) (t_sample : α) (i : ℕ) : α × α :=
  if i = 0 then
    let s := (traj.getD i dflt).2
    (wrap_angle fpi s.theta, s.omega)
  else
    let t1 := (traj.getD (i - 1) dflt).1
    let s1 := (traj.getD (i - 1) dflt).2
    let t2 := (traj.getD i dflt).1
    let s2 := (traj.getD i dflt).2
    let dt := t2 - t1
    if dt ≤ 0 then
      let s := (traj.getD i dflt).2
      (wrap_angle fpi s.theta, s.omega)
    else
      let alpha := (t_sample - t1) / dt
      let dtheta := remEuclid (s2.theta - s1.theta + fpi) (2 * fpi) - fpi
      let theta_interp := s1.theta + alpha * dtheta
      let omega_interp := s1.omega + alpha * (s2.omega - s1.omega)
      (wrap_angle fpi theta_interp, omega_interp)

/-- The sampling loop of `sample_poincare_from_trajectory`: iterate over
`k` remaining target indices starting at `n`; `break` (return the samples
collected so far) when no trajectory point at or past the target time
exists. -/
def samplePoincareAux (fpi : α) (traj : List (α × State α)) (period : α) :
    ℕ → ℕ → List (α × α)
  | _, 0 => []
  | n, Nat.succ k =>
    let t_sample := (n : α) * period
    match position (fun p => t_sample ≤ p.1) traj with
    | none => []
    | some i => sampleAt fpi traj t_sample i :: samplePoincareAux fpi traj period (n + 1) k

/-- solve_equation.rs: `sample_poincare_from_trajectory`. -/
def sample_poincare_from_trajectory (fpi : α) (traj : List (α × State α))
    (params : PendulumParams α) (transient_periods sample_periods : ℕ) : List (α × α) :=
  let period := 2 * fpi / params.omega_d
  samplePoincareAux fpi traj period (transient_periods + 1) sample_periods

/-- The sampling loop of `poincare`: iterate over `k` remaining target
indices starting at `n`; push a sample only when a trajectory point at or
past the target time exists at an index `idx > 0` (no `break`, no
`idx == 0` emission, no degenerate-step branch). -/
def poincareAux (fpi : α) (traj : List (α × State α)) (period : α) :
    ℕ → ℕ → List (α × α)
  | _, 0 => []
  | n, Nat.succ k =>
    let target_time := (n : α) * period
    match position (fun p => target_time ≤ p.1) traj with
    | none => poincareAux fpi traj period (n + 1) k
    | some idx =>
      if 0 < idx then
        let t1 := (traj.getD (idx - 1) dflt).1
        let s1 := (traj.getD (idx - 1) dflt).2
        let t2 := (traj.getD idx dflt).1
        let s2 := (traj.getD idx dflt).2
        let frac := (target_time - t1) / (t2 - t1)
        let theta_diff := remEuclid (s2.theta - s1.theta + fpi) (2 * fpi) - fpi
        let theta_interp := s1.theta + frac * theta_diff
        let omega_interp := s1.omega + frac * (s2.omega - s1.omega)
        (wrap_angle fpi theta_interp, omega_interp) ::
          poincareAux fpi traj period (n + 1) k
      else poincareAux fpi traj period (n + 1) k

/-- solve_equation.rs: `poincare`. -/
def poincare (fsin : α → α) (fpi : α) (params : PendulumParams α)
    (initial_theta initial_omega : α)
    (transient_periods sample_periods : ℕ) : List (α × α) :=
  let period := 2 * fpi / params.omega_d
  let traj := solve fsin params initial_theta initial_omega
  poincareAux fpi traj period (transient_periods + 1) sample_periods

/-- solve_equation.rs: `poincare_via_solve`. -/
def poincare_via_solve (fsin : α → α) (fpi : α) (params : PendulumParams α)
    (initial_theta initial_omega : α)
    (transient_periods sample_periods : ℕ) : List (α × α) :=
  let traj := solve fsin params initial_theta initial_omega
  sample_poincare_from_trajectory fpi traj params transient_periods sample_periods

/-- Concrete parameter record used to instantiate theorems with
hypotheses at explicit inputs. -/
def simpleParams (omega_d dt t_end : α) : PendulumParams α :=
  ⟨49/5, 1, 1/2, 6/5, omega_d, dt, t_end, -4, 4, 1/100, -4, 4, 1/100⟩

@[simp] theorem simpleParams_omega_d (w dt te : α) : (simpleParams w dt te).omega_d = w := rfl

@[simp] theorem simpleParams_dt (w dt te : α) : (simpleParams w dt te).dt = dt := rfl

@[simp] theorem simpleParams_t_end (w dt te : α) : (simpleParams w dt te).t_end = te := rfl

theorem solveSteps_length (fsin : α → α) (params : PendulumParams α) :
    ∀ (k : ℕ) (s : State α) (t : α), (solveSteps fsin params k s t).length = k := by
  intro k
  induction k with
  | zero => intro s t; rfl
  | succ k ih => intro s t; simp [solveSteps, ih]

theorem solve_length (fsin : α → α) (params : PendulumParams α) (θ0 ω0 : α) :
    (solve fsin params θ0 ω0).length = ⌊params.t_end / params.dt⌋₊ + 1 := by
  simp [solve, solveSteps_length]

/-- C1: for every initial state and parameters with `dt > 0` and
`t_end ≥ 0`, the trajectory returned by `solve` has exactly
`floor(t_end/dt) + 1` entries (the step count is fixed before the loop,
as `solve`'s definition shows). -/
theorem C1_solve_length (params : PendulumParams ℝ) (θ0 ω0 : ℝ)
    (hdt : 0 < params.dt) (hte : 0 ≤ params.t_end) :
    (solve Real.sin params θ0 ω0).length = ⌊params.t_end / params.dt⌋₊ + 1 :=
  solve_length Real.sin params θ0 ω0

/-- C1 witness: concrete parameters with `dt = 1`, `t_end = 2`. -/
theorem C1_solve_length_witness :
    0 < (simpleParams 1 1 2 : PendulumParams ℝ).dt ∧
      0 ≤ (simpleParams 1 1 2 : PendulumParams ℝ).t_end ∧
      (solve Real.sin (simpleParams 1 1 2) 0 0).length =
        ⌊(simpleParams 1 1 2 : PendulumParams ℝ).t_end /
            (simpleParams 1 1 2 : PendulumParams ℝ).dt⌋₊ + 1 :=
  ⟨by norm_num, by norm_num,
    C1_solve_length (simpleParams 1 1 2) 0 0 (by norm_num) (by norm_num)⟩

/-- C2: `rk4_step` returns `(next_state, t + dt)` where the next state
combines four derivative evaluations `k1` at `(state, t)`, `k2` and `k3`
at the midpoint extrapolated with `k1` resp. `k2`, and `k4` at the full
step extrapolated with `k3`, as
`theta + dt/6*(k1 + 2*k2 + 2*k3 + k4)` componentwise. -/
theorem C2_rk4_step (s : State ℝ) (t : ℝ) (params : PendulumParams ℝ) :
    rk4_step Real.sin s t params =
      (let k1 := rhs Real.sin s.theta s.omega t params
       let k2 := rhs Real.sin (s.theta + (1/2) * params.dt * k1.1)
         (s.omega + (1/2) * params.dt * k1.2) (t + (1/2) * params.dt) params
       let k3 := rhs Real.sin (s.theta + (1/2) * params.dt * k2.1)
         (s.omega + (1/2) * params.dt * k2.2) (t + (1/2) * params.dt) params
       let k4 := rhs Real.sin (s.theta + params.dt * k3.1)
         (s.omega + params.dt * k3.2) (t + params.dt) params
       (⟨s.theta + params.dt / 6 * (k1.1 + 2 * k2.1 + 2 * k3.1 + k4.1),
         s.omega + params.dt / 6 * (k1.2 + 2 * k2.2 + 2 * k3.2 + k4.2)⟩,
        t + params.dt)) := rfl

/-- C3: `rhs` returns exactly
`(omega, -(g/l)*sin(theta) - q*omega + f_d*sin(omega_d * t))`. -/
theorem C3_rhs (theta omega t : ℝ) (params : PendulumParams ℝ) :
    rhs Real.sin theta omega t params =
      (omega, -(params.g / params.l) * Real.sin theta - params.q * omega
        + params.f_d * Real.sin (params.omega_d * t)) := rfl

theorem remEuclid_nonneg {y : α} (x : α) (hy : 0 < y) : 0 ≤ remEuclid x y := by
  have h1 : (⌊x / y⌋ : α) ≤ x / y := Int.floor_le (x / y)
  have h2 : y * (⌊x / y⌋ : α) ≤ y * (x / y) := by
    exact mul_le_mul_of_nonneg_left h1 hy.le
  have h3 : y * (x / y) = x := mul_div_cancel₀ x hy.ne'
  simp only [remEuclid]
  linarith

theorem remEuclid_lt {y : α} (x : α) (hy : 0 < y) : remEuclid x y < y := by
  have h1 : x / y < (⌊x / y⌋ : α) + 1 := Int.lt_floor_add_one (x / y)
  have h2 : x < y * ((⌊x / y⌋ : α) + 1) := by
    rw [mul_comm]
    exact (div_lt_iff hy).mp h1
  simp only [remEuclid]
  nlinarith

theorem remEuclid_eq_self {x y : α} (hy : 0 < y) (h0 : 0 ≤ x) (h1 : x < y) :
    remEuclid x y = x := by
  have hfl : ⌊x / y⌋ = 0 := by
    rw [Int.floor_eq_zero_iff]
    constructor
    · exact div_nonneg h0 hy.le
    · exact (div_lt_one hy).mpr h1
  simp [remEuclid, hfl]

theorem remEuclid_add_mul_int {y : α} (x : α) (hy : y ≠ 0) (k : ℤ) :
    remEuclid (x + y * k) y = remEuclid x y := by
  have hq : (x + y * k) / y = x / y + k := by
    field_simp
    ring
  simp only [remEuclid, hq, Int.floor_add_int]
  rw [Int.cast_add]
  ring

/-- `wrap_angle` always lands in the half-open interval `[-pi, pi)` when
`fpi > 0`. -/
theorem wrap_angle_mem_Ico {fpi : α} (theta : α) (hpi : 0 < fpi) :
    wrap_angle fpi theta ∈ Set.Ico (-fpi) fpi := by
  have h2 : (0 : α) < 2 * fpi := by linarith
  constructor
  · have := remEuclid_nonneg (theta + fpi) h2
    simp only [wrap_angle]
    linarith
  · have := remEuclid_lt (theta + fpi) h2
    simp only [wrap_angle]
    linarith

theorem wrap_angle_eq_self {fpi : α} {theta : α} (hpi : 0 < fpi)
    (h : theta ∈ Set.Ico (-fpi) fpi) : wrap_angle fpi theta = theta := by
  have h2 : (0 : α) < 2 * fpi := by linarith
  have he : remEuclid (theta + fpi) (2 * fpi) = theta + fpi :=
    remEuclid_eq_self h2 (by have := h.1; linarith) (by have := h.2; linarith)
  simp [wrap_angle, he]

theorem wrap_angle_idem {fpi : α} (theta : α) (hpi : 0 < fpi) :
    wrap_angle fpi (wrap_angle fpi theta) = wrap_angle fpi theta :=
  wrap_angle_eq_self hpi (wrap_angle_mem_Ico theta hpi)

theorem wrap_angle_add_period {fpi : α} (theta : α) (hpi : fpi ≠ 0) (k : ℤ) :
    wrap_angle fpi (theta + 2 * fpi * k) = wrap_angle fpi theta := by
  have h2 : (2 : α) * fpi ≠ 0 := by
    intro h
    apply hpi
    have : (2 : α) ≠ 0 := two_ne_zero
    exact (mul_eq_zero.mp h).resolve_left this
  have harg : theta + 2 * fpi * k + fpi = (theta + fpi) + (2 * fpi) * k := by ring
  simp only [wrap_angle, harg, remEuclid_add_mul_int (theta + fpi) h2 k]

/-- `wrap_angle` shifts its argument by an integer multiple of `2*fpi`. -/
theorem wrap_angle_sub_eq (fpi theta : α) :
    ∃ k : ℤ, wrap_angle fpi theta = theta + 2 * fpi * k := by
  refine ⟨-⌊(theta + fpi) / (2 * fpi)⌋, ?_⟩
  simp only [wrap_angle, remEuclid]
  push_cast
  ring

/-- The first component of the sample pushed by any branch of the loop
body of `sample_poincare_from_trajectory` is a wrapped angle. -/
theorem sampleAt_fst (fpi : α) (traj : List (α × State α)) (t_sample : α) (i : ℕ) :
    ∃ th om, sampleAt fpi traj t_sample i = (wrap_angle fpi th, om) := by
  simp only [sampleAt]
  split
  · exact ⟨_, _, rfl⟩
  · split
    · exact ⟨_, _, rfl⟩
    · exact ⟨_, _, rfl⟩

theorem samplePoincareAux_theta_mem {fpi : α} (hpi : 0 < fpi)
    (traj : List (α × State α)) (period : α) :
    ∀ (k n : ℕ), List.Forall (fun x : α × α => x.1 ∈ Set.Ico (-fpi) fpi)
      (samplePoincareAux fpi traj period n k) := by
  intro k
  induction k with
  | zero => intro n; simp [samplePoincareAux, List.Forall]
  | succ k ih =>
    intro n
    simp only [samplePoincareAux]
    cases hpos : position (fun p => (n : α) * period ≤ p.1) traj with
    | none => simp [List.Forall]
    | some i =>
      rw [List.forall_cons]
      constructor
      · obtain ⟨th, om, hth⟩ := sampleAt_fst fpi traj ((n : α) * period) i
        rw [hth]
        exact wrap_angle_mem_Ico th hpi
      · exact ih (n + 1)

/-- C5 counterexample: `wrap_angle` applied to `-pi` returns `-pi`, which
is not in the half-open interval `(-pi, pi]` claimed by the spec. -/
theorem C5_counterexample :
    wrap_angle Real.pi (-Real.pi) ∉ Set.Ioc (-Real.pi) Real.pi := by
  have h1 : wrap_angle Real.pi (-Real.pi) = -Real.pi := by
    have hz : remEuclid (0 : ℝ) (2 * Real.pi) = 0 := by
      simp [remEuclid]
    simp [wrap_angle, hz]
  rw [h1]
  intro h
  exact lt_irrefl _ h.1

/-- C5 (amended): `wrap_angle` always returns a value in the half-open
interval `[-pi, pi)`, and the theta component of every sample emitted by
`sample_poincare_from_trajectory` lies in `[-pi, pi)`. -/
theorem C5_wrap_range (theta : ℝ) (traj : List (ℝ × State ℝ))
    (params : PendulumParams ℝ) (T S : ℕ) :
    wrap_angle Real.pi theta ∈ Set.Ico (-Real.pi) Real.pi ∧
      List.Forall (fun x : ℝ × ℝ => x.1 ∈ Set.Ico (-Real.pi) Real.pi)
        (sample_poincare_from_trajectory Real.pi traj params T S) :=
  ⟨wrap_angle_mem_Ico theta Real.pi_pos,
    samplePoincareAux_theta_mem Real.pi_pos traj _ S (T + 1)⟩

/-- C6 counterexample: `pi` itself lies in the wrapped range `(-pi, pi]`
claimed by the spec, yet `wrap_angle pi = -pi`, so wrapping an
already-wrapped angle is not always a no-op on `(-pi, pi]`. -/
theorem C6_counterexample :
    Real.pi ∈ Set.Ioc (-Real.pi) Real.pi ∧ wrap_angle Real.pi Real.pi ≠ Real.pi := by
  constructor
  · exact ⟨by linarith [Real.pi_pos], le_refl _⟩
  · have hfl : ⌊(2 * Real.pi) / (2 * Real.pi)⌋ = 1 := by
      rw [div_self (by positivity : (2 : ℝ) * Real.pi ≠ 0)]
      exact Int.floor_one
    have h1 : wrap_angle Real.pi Real.pi = -Real.pi := by
      simp only [wrap_angle, remEuclid]
      rw [show Real.pi + Real.pi = 2 * Real.pi by ring, hfl]
      push_cast
      ring
    rw [h1]
    intro h
    have := Real.pi_pos
    linarith

/-- C6 (amended): `wrap_angle` is the identity on the interval
`[-pi, pi)` (the actual wrapped range), hence idempotent everywhere, and
it is invariant under shifting by any integer multiple of `2*pi`. -/
theorem C6_wrap_algebra (theta : ℝ) (k : ℤ) :
    (theta ∈ Set.Ico (-Real.pi) Real.pi → wrap_angle Real.pi theta = theta) ∧
      wrap_angle Real.pi (wrap_angle Real.pi theta) = wrap_angle Real.pi theta ∧
      wrap_angle Real.pi (theta + 2 * Real.pi * k) = wrap_angle Real.pi theta :=
  ⟨fun h => wrap_angle_eq_self Real.pi_pos h,
    wrap_angle_idem theta Real.pi_pos,
    wrap_angle_add_period theta Real.pi_ne_zero k⟩

/-- C6 witness: at `theta = 0` and `k = 1` all three parts hold. -/
theorem C6_wrap_algebra_witness :
    (0 : ℝ) ∈ Set.Ico (-Real.pi) Real.pi ∧ wrap_angle Real.pi 0 = 0 ∧
      wrap_angle Real.pi (wrap_angle Real.pi 0) = wrap_angle Real.pi 0 ∧
      wrap_angle Real.pi ((0 : ℝ) + 2 * Real.pi * (1 : ℤ)) = wrap_angle Real.pi 0 := by
  have hmem : (0 : ℝ) ∈ Set.Ico (-Real.pi) Real.pi :=
    ⟨by linarith [Real.pi_pos], Real.pi_pos⟩
  exact ⟨hmem, (C6_wrap_algebra 0 1).1 hmem, (C6_wrap_algebra 0 1).2.1,
    (C6_wrap_algebra 0 1).2.2⟩

theorem position_none_iff {β : Type} (p : β → Prop) [DecidablePred p] :
    ∀ l : List β, position p l = none ↔ ∀ x ∈ l, ¬ p x := by
  intro l
  induction l with
  | nil => simp [position]
  | cons x xs ih =>
    simp only [position]
    by_cases hx : p x
    · simp [hx]
    · simp [hx, Option.map_eq_none', ih]

theorem position_some_get? {β : Type} (p : β → Prop) [DecidablePred p] :
    ∀ (l : List β) (i : ℕ), position p l = some i → ∃ x, l.get? i = some x ∧ p x := by
  intro l
  induction l with
  | nil => intro i h; simp [position] at h
  | cons x xs ih =>
    intro i h
    simp only [position] at h
    by_cases hx : p x
    · rw [if_pos hx] at h
      obtain rfl : (0 : ℕ) = i := Option.some.inj h
      exact ⟨x, rfl, hx⟩
    · rw [if_neg hx] at h
      cases hp : position p xs with
      | none => rw [hp] at h; simp at h
      | some j =>
        rw [hp] at h
        simp only [Option.map_some'] at h
        obtain rfl : j + 1 = i := Option.some.inj h
        obtain ⟨y, hy, hpy⟩ := ih j hp
        exact ⟨y, hy, hpy⟩

theorem position_some_min {β : Type} (p : β → Prop) [DecidablePred p] :
    ∀ (l : List β) (i : ℕ), position p l = some i →
      ∀ (j : ℕ) (y : β), j < i → l.get? j = some y → ¬ p y := by
  intro l
  induction l with
  | nil => intro i h; simp [position] at h
  | cons x xs ih =>
    intro i h j y hj hy
    simp only [position] at h
    by_cases hx : p x
    · rw [if_pos hx] at h
      obtain rfl : (0 : ℕ) = i := Option.some.inj h
      exact absurd hj (Nat.not_lt_zero j)
    · rw [if_neg hx] at h
      cases hp : position p xs with
      | none => rw [hp] at h; simp at h
      | some j' =>
        rw [hp] at h
        simp only [Option.map_some'] at h
        obtain rfl : j' + 1 = i := Option.some.inj h
        cases j with
        | zero =>
          obtain rfl : x = y := Option.some.inj hy
          exact hx
        | succ j =>
          exact ih j' hp j y (Nat.lt_of_succ_lt_succ hj) hy

theorem position_some_intro {β : Type} (p : β → Prop) [DecidablePred p] :
    ∀ (l : List β) (i : ℕ) (x : β), l.get? i = some x → p x →
      (∀ (j : ℕ) (y : β), j < i → l.get? j = some y → ¬ p y) →
      position p l = some i := by
  intro l
  induction l with
  | nil => intro i x hx; simp at hx
  | cons a as ih =>
    intro i x hx hpx hmin
    cases i with
    | zero =>
      obtain rfl : a = x := Option.some.inj hx
      simp [position, hpx]
    | succ i =>
      have hna : ¬ p a := hmin 0 a (Nat.succ_pos i) rfl
      have htl : position p as = some i :=
        ih i x hx hpx (fun j y hj hy => hmin (j + 1) y (Nat.succ_lt_succ hj) hy)
      simp [position, hna, htl]

theorem rk4_step_snd (fsin : α → α) (state : State α) (t : α) (params : PendulumParams α) :
    (rk4_step fsin state t params).2 = t + params.dt := rfl

/-- Times pushed by the integration loop: the entry at index `j` of
`solveSteps fsin params k s t` carries time `t + (j+1) * dt`. -/
theorem solveSteps_get?_fst (fsin : α → α) (params : PendulumParams α) :
    ∀ (k : ℕ) (s : State α) (t : α) (j : ℕ) (x : α × State α),
      (solveSteps fsin params k s t).get? j = some x → x.1 = t + (j + 1) * params.dt := by
  intro k
  induction k with
  | zero => intro s t j x h; simp [solveSteps] at h
  | succ k ih =>
    intro s t j x h
    simp only [solveSteps] at h
    cases j with
    | zero =>
      obtain rfl := Option.some.inj h
      simp [rk4_step_snd]
    | succ j =>
      have := ih (rk4_step fsin s t params).1 (rk4_step fsin s t params).2 j x h
      rw [this, rk4_step_snd]
      push_cast
      ring

/-- Times of the `solve` trajectory: the entry at index `j` carries time
`j * dt`. -/
theorem solve_get?_fst (fsin : α → α) (params : PendulumParams α) (θ0 ω0 : α) :
    ∀ (j : ℕ) (x : α × State α),
      (solve fsin params θ0 ω0).get? j = some x → x.1 = (j : α) * params.dt := by
  intro j x h
  simp only [solve] at h
  cases j with
  | zero =>
    obtain rfl := Option.some.inj h
    simp
  | succ j =>
    have := solveSteps_get?_fst fsin params _ _ _ j x h
    rw [this]
    push_cast
    ring

/-- Concrete two-point trajectory used to instantiate sampler theorems. -/
def wTraj : List (ℝ × State ℝ) := [(0, ⟨0, 0⟩), (2, ⟨1, 1⟩)]

/-- Concrete one-point trajectory whose first time is already past the
first target time. -/
def wTraj1 : List (ℝ × State ℝ) := [(5, ⟨1, 2⟩)]

/-- C4: when the located index `i` for target time `n * period` satisfies
`i > 0` and `time[i] - time[i-1] > 0`, the sampling loop emits the sample
with fraction `alpha = (t_n - time[i-1]) / (time[i] - time[i-1])`, the
angular difference wrapped via the floor-style modulo
`((d + pi) mod 2pi) - pi`, `theta_interp = theta[i-1] + alpha * d'`
(wrapped on emission), and `omega` interpolated linearly with no
wraparound. -/
theorem C4_interpolation (traj : List (ℝ × State ℝ)) (period : ℝ) (n k i : ℕ)
    (hpos : position (fun p => (n : ℝ) * period ≤ p.1) traj = some i)
    (hi : 0 < i)
    (hdt : 0 < (traj.getD i dflt).1 - (traj.getD (i - 1) dflt).1) :
    samplePoincareAux Real.pi traj period n (k + 1) =
      (wrap_angle Real.pi ((traj.getD (i - 1) dflt).2.theta +
          ((n : ℝ) * period - (traj.getD (i - 1) dflt).1) /
              ((traj.getD i dflt).1 - (traj.getD (i - 1) dflt).1) *
            (remEuclid ((traj.getD i dflt).2.theta - (traj.getD (i - 1) dflt).2.theta
                + Real.pi) (2 * Real.pi) - Real.pi)),
        (traj.getD (i - 1) dflt).2.omega +
          ((n : ℝ) * period - (traj.getD (i - 1) dflt).1) /
              ((traj.getD i dflt).1 - (traj.getD (i - 1) dflt).1) *
            ((traj.getD i dflt).2.omega - (traj.getD (i - 1) dflt).2.omega)) ::
        samplePoincareAux Real.pi traj period (n + 1) k := by
  simp only [samplePoincareAux, hpos]
  simp only [sampleAt]
  rw [if_neg hi.ne', if_neg (not_le.mpr hdt)]

/-- C4 witness: a concrete trajectory, target and located index with
`i = 1 > 0` and a positive time step. -/
theorem C4_interpolation_witness :
    position (fun p : ℝ × State ℝ => ((1 : ℕ) : ℝ) * 1 ≤ p.1) wTraj = some 1 ∧
      (0 : ℝ) < (wTraj.getD 1 dflt).1 - (wTraj.getD 0 dflt).1 ∧
      (samplePoincareAux Real.pi wTraj 1 1 1).length = 1 := by
  have h1 : position (fun p : ℝ × State ℝ => ((1 : ℕ) : ℝ) * 1 ≤ p.1) wTraj = some 1 := by
    norm_num [position, wTraj]
  have h2 : (0 : ℝ) < (wTraj.getD 1 dflt).1 - (wTraj.getD 0 dflt).1 := by
    norm_num [wTraj]
  refine ⟨h1, h2, ?_⟩
  rw [C4_interpolation wTraj 1 1 0 1 h1 (by norm_num) h2]
  rfl

/-- C8: when the first trajectory index at or past the target time is
`i = 0`, `sample_poincare_from_trajectory` emits the state at index 0
directly, wrapped `theta[0]` and raw `omega[0]`, with no interpolation. -/
theorem C8_index_zero (traj : List (ℝ × State ℝ)) (params : PendulumParams ℝ) (T k : ℕ)
    (hpos : position
      (fun p => ((T + 1 : ℕ) : ℝ) * (2 * Real.pi / params.omega_d) ≤ p.1) traj = some 0) :
    sample_poincare_from_trajectory Real.pi traj params T (k + 1) =
      (wrap_angle Real.pi (traj.getD 0 dflt).2.theta, (traj.getD 0 dflt).2.omega) ::
        samplePoincareAux Real.pi traj (2 * Real.pi / params.omega_d) (T + 2) k := by
  simp only [sample_poincare_from_trajectory, samplePoincareAux, hpos]
  simp only [sampleAt, eq_self_iff_true, if_true]

/-- C8 witness: a one-point trajectory whose only time `5` is past the
first target time, so the located index is 0 and the point is emitted
directly. -/
theorem C8_index_zero_witness :
    position (fun p : ℝ × State ℝ =>
        ((0 + 1 : ℕ) : ℝ) * (2 * Real.pi / (simpleParams (2 * Real.pi) 1 0 :
          PendulumParams ℝ).omega_d) ≤ p.1) wTraj1 = some 0 ∧
      sample_poincare_from_trajectory Real.pi wTraj1 (simpleParams (2 * Real.pi) 1 0) 0 1 =
        [(wrap_angle Real.pi 1, 2)] := by
  have hne : (2 * Real.pi) ≠ 0 := by positivity
  have hcond : ((0 + 1 : ℕ) : ℝ) * (2 * Real.pi / (2 * Real.pi)) ≤ 5 := by
    rw [div_self hne]
    norm_num
  have h1 : position (fun p : ℝ × State ℝ =>
      ((0 + 1 : ℕ) : ℝ) * (2 * Real.pi / (simpleParams (2 * Real.pi) 1 0 :
        PendulumParams ℝ).omega_d) ≤ p.1) wTraj1 = some 0 := by
    simp only [wTraj1, position, simpleParams_omega_d]
    rw [if_pos hcond]
  refine ⟨h1, ?_⟩
  rw [C8_index_zero wTraj1 (simpleParams (2 * Real.pi) 1 0) 0 0 h1]
  rfl

theorem samplePoincareAux_length_le (fpi : α) (traj : List (α × State α)) (period : α) :
    ∀ (k n : ℕ), (samplePoincareAux fpi traj period n k).length ≤ k := by
  intro k
  induction k with
  | zero => intro n; simp [samplePoincareAux]
  | succ k ih =>
    intro n
    cases hpos : position (fun p => (n : α) * period ≤ p.1) traj with
    | none => simp [samplePoincareAux, hpos]
    | some i =>
      simp only [samplePoincareAux, hpos, List.length_cons]
      exact Nat.succ_le_succ (ih (n + 1))

theorem samplePoincareAux_length_eq (fpi : α) (traj : List (α × State α)) (period : α) :
    ∀ (k n : ℕ), (∀ m : ℕ, n ≤ m → m < n + k → ∃ p ∈ traj, (m : α) * period ≤ p.1) →
      (samplePoincareAux fpi traj period n k).length = k := by
  intro k
  induction k with
  | zero => intro n h; simp [samplePoincareAux]
  | succ k ih =>
    intro n h
    obtain ⟨p, hp, hple⟩ := h n le_rfl (by omega)
    cases hq : position (fun q => (n : α) * period ≤ q.1) traj with
    | none =>
      rw [position_none_iff] at hq
      exact absurd hple (hq p hp)
    | some i =>
      simp only [samplePoincareAux, hq, List.length_cons]
      rw [ih (n + 1) (fun m hm1 hm2 => h m (by omega) (by omega))]

/-- C7: an insufficient trajectory is not an error: the sampler is total,
returns at most `sample_periods` samples, and returns exactly
`sample_periods` samples whenever the trajectory reaches the last target
time `(T+S) * period` of the requested window. -/
theorem C7_insufficient_trajectory (traj : List (ℝ × State ℝ)) (params : PendulumParams ℝ)
    (T S : ℕ) (hw : 0 < params.omega_d) :
    (sample_poincare_from_trajectory Real.pi traj params T S).length ≤ S ∧
      ((∃ p ∈ traj, ((T + S : ℕ) : ℝ) * (2 * Real.pi / params.omega_d) ≤ p.1) →
        (sample_poincare_from_trajectory Real.pi traj params T S).length = S) := by
  constructor
  · exact samplePoincareAux_length_le Real.pi traj _ S (T + 1)
  · rintro ⟨p, hp, hple⟩
    apply samplePoincareAux_length_eq
    intro m hm1 hm2
    refine ⟨p, hp, ?_⟩
    have hper : 0 < 2 * Real.pi / params.omega_d :=
      div_pos (by positivity) hw
    have hmle : (m : ℝ) ≤ ((T + S : ℕ) : ℝ) := Nat.cast_le.mpr (by omega)
    calc (m : ℝ) * (2 * Real.pi / params.omega_d)
        ≤ ((T + S : ℕ) : ℝ) * (2 * Real.pi / params.omega_d) :=
          mul_le_mul_of_nonneg_right hmle hper.le
      _ ≤ p.1 := hple

/-- C7 witness: a two-point trajectory that reaches the single requested
target time, so exactly one sample is returned. -/
theorem C7_insufficient_trajectory_witness :
    0 < (simpleParams (2 * Real.pi) 1 0 : PendulumParams ℝ).omega_d ∧
      (sample_poincare_from_trajectory Real.pi wTraj
        (simpleParams (2 * Real.pi) 1 0) 0 1).length ≤ 1 ∧
      (∃ p ∈ wTraj, ((0 + 1 : ℕ) : ℝ) *
          (2 * Real.pi / (simpleParams (2 * Real.pi) 1 0 : PendulumParams ℝ).omega_d) ≤ p.1) ∧
      (sample_poincare_from_trajectory Real.pi wTraj
        (simpleParams (2 * Real.pi) 1 0) 0 1).length = 1 := by
  have hw : (0 : ℝ) < (simpleParams (2 * Real.pi) 1 0 : PendulumParams ℝ).omega_d := by
    rw [simpleParams_omega_d]
    positivity
  have hex : ∃ p ∈ wTraj, ((0 + 1 : ℕ) : ℝ) *
      (2 * Real.pi / (simpleParams (2 * Real.pi) 1 0 : PendulumParams ℝ).omega_d) ≤ p.1 := by
    refine ⟨(2, ⟨1, 1⟩), by simp [wTraj], ?_⟩
    rw [simpleParams_omega_d, div_self (by positivity : (2 : ℝ) * Real.pi ≠ 0)]
    norm_num
  exact ⟨hw, (C7_insufficient_trajectory wTraj _ 0 1 hw).1, hex,
    (C7_insufficient_trajectory wTraj _ 0 1 hw).2 hex⟩

/-- When the times of the trajectory are strictly increasing and the
target time is exactly the time at index `i`, the located index is `i`. -/
theorem position_of_exact_hit (traj : List (ℝ × State ℝ)) (target : ℝ) (i : ℕ)
    (hsort : List.Pairwise (fun p q : ℝ × State ℝ => p.1 < q.1) traj)
    (hi : i < traj.length)
    (ht : (traj.get ⟨i, hi⟩).1 = target) :
    position (fun p => target ≤ p.1) traj = some i := by
  apply position_some_intro _ traj i _ (List.get?_eq_get hi) ht.ge
  intro j y hj hy
  obtain ⟨hjl, rfl⟩ := List.get?_eq_some.mp hy
  have hlt : (traj.get ⟨j, hjl⟩).1 < (traj.get ⟨i, hi⟩).1 :=
    List.pairwise_iff_get.mp hsort ⟨j, hjl⟩ ⟨i, hi⟩ (Fin.mk_lt_mk.mpr hj)
  rw [not_le, ← ht]
  exact hlt

/-- C9: when a target time exactly equals a trajectory timestamp of a
trajectory with strictly increasing times, the emitted sample equals the
wrapped trajectory point at that index exactly: theta is
`wrap_angle(theta[i])` and omega is `omega[i]`. -/
theorem C9_exact_time_hit (traj : List (ℝ × State ℝ)) (period : ℝ) (n k i : ℕ)
    (hsort : List.Pairwise (fun p q : ℝ × State ℝ => p.1 < q.1) traj)
    (hi : i < traj.length)
    (ht : (traj.get ⟨i, hi⟩).1 = (n : ℝ) * period) :
    samplePoincareAux Real.pi traj period n (k + 1) =
      (wrap_angle Real.pi (traj.get ⟨i, hi⟩).2.theta, (traj.get ⟨i, hi⟩).2.omega) ::
        samplePoincareAux Real.pi traj period (n + 1) k := by
  have hpos : position (fun p => (n : ℝ) * period ≤ p.1) traj = some i :=
    position_of_exact_hit traj _ i hsort hi ht
  by_cases h0 : i = 0
  · subst h0
    simp only [samplePoincareAux, hpos]
    simp only [sampleAt, eq_self_iff_true, if_true]
    rw [List.getD_eq_get traj dflt hi]
  · have hpi : 0 < i := Nat.pos_of_ne_zero h0
    have hi1 : i - 1 < traj.length := by omega
    have hgd1 : traj.getD (i - 1) dflt = traj.get ⟨i - 1, hi1⟩ := List.getD_eq_get traj dflt hi1
    have hgd2 : traj.getD i dflt = traj.get ⟨i, hi⟩ := List.getD_eq_get traj dflt hi
    have hlt : (traj.get ⟨i - 1, hi1⟩).1 < (traj.get ⟨i, hi⟩).1 :=
      List.pairwise_iff_get.mp hsort ⟨i - 1, hi1⟩ ⟨i, hi⟩ (Fin.mk_lt_mk.mpr (by omega))
    simp only [samplePoincareAux, hpos]
    simp only [sampleAt]
    rw [if_neg h0, hgd1, hgd2, if_neg (not_le.mpr (by linarith))]
    have halpha : ((n : ℝ) * period - (traj.get ⟨i - 1, hi1⟩).1) /
        ((traj.get ⟨i, hi⟩).1 - (traj.get ⟨i - 1, hi1⟩).1) = 1 := by
      rw [← ht]
      exact div_self (by linarith)
    rw [halpha]
    obtain ⟨k0, hk0⟩ := wrap_angle_sub_eq Real.pi
      ((traj.get ⟨i, hi⟩).2.theta - (traj.get ⟨i - 1, hi1⟩).2.theta)
    have hwd : remEuclid ((traj.get ⟨i, hi⟩).2.theta - (traj.get ⟨i - 1, hi1⟩).2.theta
        + Real.pi) (2 * Real.pi) - Real.pi =
        wrap_angle Real.pi ((traj.get ⟨i, hi⟩).2.theta - (traj.get ⟨i - 1, hi1⟩).2.theta) := rfl
    have hth : (traj.get ⟨i - 1, hi1⟩).2.theta +
        1 * (remEuclid ((traj.get ⟨i, hi⟩).2.theta - (traj.get ⟨i - 1, hi1⟩).2.theta
          + Real.pi) (2 * Real.pi) - Real.pi) =
        (traj.get ⟨i, hi⟩).2.theta + 2 * Real.pi * k0 := by
      rw [hwd, hk0]
      ring
    rw [hth, wrap_angle_add_period _ Real.pi_ne_zero k0]
    have hom : (traj.get ⟨i - 1, hi1⟩).2.omega +
        1 * ((traj.get ⟨i, hi⟩).2.omega - (traj.get ⟨i - 1, hi1⟩).2.omega) =
        (traj.get ⟨i, hi⟩).2.omega := by ring
    rw [hom]

/-- C9 witness: the second point of a concrete strictly increasing
trajectory is hit exactly by the target time `1 * 2`. -/
theorem C9_exact_time_hit_witness :
    List.Pairwise (fun p q : ℝ × State ℝ => p.1 < q.1) wTraj ∧
      (wTraj.get ⟨1, by norm_num [wTraj]⟩).1 = ((1 : ℕ) : ℝ) * 2 ∧
      samplePoincareAux Real.pi wTraj 2 1 1 = [(wrap_angle Real.pi 1, 1)] := by
  have hs : List.Pairwise (fun p q : ℝ × State ℝ => p.1 < q.1) wTraj := by
    norm_num [wTraj, List.pairwise_cons]
  have hi : 1 < wTraj.length := by norm_num [wTraj]
  have ht : (wTraj.get ⟨1, hi⟩).1 = ((1 : ℕ) : ℝ) * 2 := by
    norm_num [wTraj]
  refine ⟨hs, ht, ?_⟩
  rw [C9_exact_time_hit wTraj 2 1 0 1 hs hi ht]
  rfl

theorem poincareAux_eq_nil (fpi : α) (traj : List (α × State α)) (period : α)
    (hper : 0 ≤ period) (c : ℕ) (hc : ∀ x ∈ traj, x.1 < (c : α) * period) :
    ∀ (k m : ℕ), c ≤ m → poincareAux fpi traj period m k = [] := by
  intro k
  induction k with
  | zero => intro m hm; rfl
  | succ k ih =>
    intro m hm
    have hnone : position (fun p => (m : α) * period ≤ p.1) traj = none := by
      rw [position_none_iff]
      intro x hx
      have h1 : x.1 < (c : α) * period := hc x hx
      have h2 : (c : α) * period ≤ (m : α) * period :=
        mul_le_mul_of_nonneg_right (Nat.cast_le.mpr hm) hper
      exact not_le.mpr (lt_of_lt_of_le h1 h2)
    simp only [poincareAux, hnone]
    exact ih (m + 1) (by omega)

/-- On a trajectory produced by `solve`, the loop of `poincare` and the
loop of `sample_poincare_from_trajectory` produce the same samples for
any positive period: every located index is positive (the trajectory
starts at time 0 < target), consecutive trajectory times differ by
exactly `dt > 0` whenever a target is found, and once a target is missed
all later targets are missed too. -/
theorem poincareAux_eq_samplePoincareAux (fsin : α → α) (fpi : α)
    (params : PendulumParams α) (θ0 ω0 : α) (period : α) (hper : 0 < period) :
    ∀ (k n : ℕ), 1 ≤ n →
      poincareAux fpi (solve fsin params θ0 ω0) period n k =
        samplePoincareAux fpi (solve fsin params θ0 ω0) period n k := by
  intro k
  induction k with
  | zero => intro n hn; rfl
  | succ k ih =>
    intro n hn
    have htarget : (0 : α) < (n : α) * period := by
      have h1 : (1 : α) ≤ (n : α) := by exact_mod_cast hn
      nlinarith
    cases hpos : position (fun p => (n : α) * period ≤ p.1) (solve fsin params θ0 ω0) with
    | none =>
      simp only [poincareAux, samplePoincareAux, hpos]
      have hc : ∀ x ∈ solve fsin params θ0 ω0, x.1 < (n : α) * period := by
        intro x hx
        have := (position_none_iff (fun p => (n : α) * period ≤ p.1)
          (solve fsin params θ0 ω0)).mp hpos x hx
        exact not_le.mp this
      exact poincareAux_eq_nil fpi _ period hper.le n hc k (n + 1) (by omega)
    | some i =>
      have hhead : (solve fsin params θ0 ω0).get? 0 = some ((0 : α), ⟨θ0, ω0⟩) := rfl
      have hine : i ≠ 0 := by
        intro h0
        subst h0
        obtain ⟨x, hx, hpx⟩ := position_some_get? _ _ 0 hpos
        rw [hhead] at hx
        obtain rfl := Option.some.inj hx
        have hpx' : (n : α) * period ≤ (0 : α) := hpx
        exact absurd hpx' (not_le.mpr htarget)
      obtain ⟨x2, hx2, hpx2⟩ := position_some_get? _ _ i hpos
      have hpx2' : (n : α) * period ≤ x2.1 := hpx2
      have ht2 : x2.1 = (i : α) * params.dt := solve_get?_fst fsin params θ0 ω0 i x2 hx2
      have hdtpos : 0 < params.dt := by
        by_contra hdt
        push_neg at hdt
        have hle : x2.1 ≤ 0 := by
          rw [ht2]
          exact mul_nonpos_of_nonneg_of_nonpos (Nat.cast_nonneg i) hdt
        linarith
      have hilen : i < (solve fsin params θ0 ω0).length := by
        obtain ⟨h, _⟩ := List.get?_eq_some.mp hx2
        exact h
      have hi1len : i - 1 < (solve fsin params θ0 ω0).length := by omega
      have hg2 : (solve fsin params θ0 ω0).getD i dflt = x2 := by
        rw [List.getD_eq_getD_get? _ dflt i, hx2, Option.getD_some]
      have hx1 : (solve fsin params θ0 ω0).get? (i - 1) =
          some ((solve fsin params θ0 ω0).get ⟨i - 1, hi1len⟩) := List.get?_eq_get hi1len
      have ht1 : ((solve fsin params θ0 ω0).get ⟨i - 1, hi1len⟩).1 =
          ((i - 1 : ℕ) : α) * params.dt :=
        solve_get?_fst fsin params θ0 ω0 (i - 1) _ hx1
      have hg1 : (solve fsin params θ0 ω0).getD (i - 1) dflt =
          (solve fsin params θ0 ω0).get ⟨i - 1, hi1len⟩ := by
        rw [List.getD_eq_getD_get? _ dflt (i - 1), hx1, Option.getD_some]
      have hdiff : ((solve fsin params θ0 ω0).getD i dflt).1 -
          ((solve fsin params θ0 ω0).getD (i - 1) dflt).1 = params.dt := by
        rw [hg1, hg2, ht1, ht2]
        have hcast : ((i - 1 : ℕ) : α) = (i : α) - 1 := by
          rw [Nat.cast_sub (by omega)]
          simp
        rw [hcast]
        ring
      have hnle : ¬ (((solve fsin params θ0 ω0).getD i dflt).1 -
          ((solve fsin params θ0 ω0).getD (i - 1) dflt).1 ≤ 0) := by
        rw [hdiff]
        exact not_le.mpr hdtpos
      simp only [poincareAux, samplePoincareAux, hpos]
      rw [if_pos (Nat.pos_of_ne_zero hine)]
      simp only [sampleAt]
      rw [if_neg hine, if_neg hnle]
      rw [ih (n + 1) (by omega)]

/-- C10 counterexample: with `omega_d = -1`, `dt = 1`, `t_end = 0` and
initial state `(0, 0)`, the target time is negative, the located index is
0, and `poincare` emits nothing while `poincare_via_solve` emits the
initial state, so the two entry points disagree. -/
theorem C10_counterexample :
    poincare Real.sin Real.pi (simpleParams (-1) 1 0) 0 0 0 1 ≠
      poincare_via_solve Real.sin Real.pi (simpleParams (-1) 1 0) 0 0 0 1 := by
  have hsolve : solve Real.sin (simpleParams (-1) 1 0) (0 : ℝ) 0 =
      [((0 : ℝ), ⟨0, 0⟩)] := by
    simp [solve, solveSteps]
  have hcond : ((0 + 1 : ℕ) : ℝ) *
      (2 * Real.pi / (simpleParams (-1 : ℝ) 1 0).omega_d) ≤ ((0 : ℝ), (⟨0, 0⟩ : State ℝ)).1 := by
    rw [simpleParams_omega_d]
    have hpi := Real.pi_pos
    have hneg : (2 : ℝ) * Real.pi / (-1) = -(2 * Real.pi) := by ring
    rw [hneg]
    push_cast
    nlinarith
  have hposx : position (fun p : ℝ × State ℝ => ((0 + 1 : ℕ) : ℝ) *
      (2 * Real.pi / (simpleParams (-1 : ℝ) 1 0).omega_d) ≤ p.1)
      [((0 : ℝ), (⟨0, 0⟩ : State ℝ))] = some 0 := by
    simp only [position]
    rw [if_pos hcond]
  have hL : poincare Real.sin Real.pi (simpleParams (-1) 1 0) 0 0 0 1 = [] := by
    simp only [poincare, hsolve, poincareAux, hposx]
    rw [if_neg (lt_irrefl 0)]
  have hR : poincare_via_solve Real.sin Real.pi (simpleParams (-1) 1 0) 0 0 0 1 =
      (wrap_angle Real.pi (0 : ℝ), (0 : ℝ)) :: [] := by
    simp only [poincare_via_solve, hsolve, sample_poincare_from_trajectory,
      samplePoincareAux, hposx]
    rfl
  intro h
  rw [hL, hR] at h
  exact List.noConfusion h

/-- C10 (amended): for every parameter record with `omega_d > 0` the two
sampler entry points agree: `poincare` returns exactly the same sample
sequence as `poincare_via_solve`. -/
theorem C10_agree (params : PendulumParams ℝ) (θ0 ω0 : ℝ) (T S : ℕ)
    (hw : 0 < params.omega_d) :
    poincare Real.sin Real.pi params θ0 ω0 T S =
      poincare_via_solve Real.sin Real.pi params θ0 ω0 T S := by
  have hper : 0 < 2 * Real.pi / params.omega_d := div_pos (by positivity) hw
  simp only [poincare, poincare_via_solve, sample_poincare_from_trajectory]
  exact poincareAux_eq_samplePoincareAux Real.sin Real.pi params θ0 ω0 _ hper S (T + 1)
    (by omega)

/-- C10 witness: concrete parameters with `omega_d = 2 * pi > 0`. -/
theorem C10_agree_witness :
    0 < (simpleParams (2 * Real.pi) 1 0 : PendulumParams ℝ).omega_d ∧
      poincare Real.sin Real.pi (simpleParams (2 * Real.pi) 1 0) 0 0 0 1 =
        poincare_via_solve Real.sin Real.pi (simpleParams (2 * Real.pi) 1 0) 0 0 0 1 := by
  have hw : (0 : ℝ) < (simpleParams (2 * Real.pi) 1 0 : PendulumParams ℝ).omega_d := by
    rw [simpleParams_omega_d]
    positivity
  exact ⟨hw, C10_agree (simpleParams (2 * Real.pi) 1 0) 0 0 0 1 hw⟩

end Chaos
